import Mathlib

/-!
Verification of the implicit-feedback recommender system
(`src/recommendation-system/implicit-feedback-recommender-system.ipynb`).

The notebook's own code builds the sparse user-item interaction matrix and
the id/index mappers (`create_X`); the ALS trainer and the retrieval
operations (`model.fit`, `model.similar_items`, `model.recommend`) live in
the external `implicit` package, of which only the call sites, the recorded
shape-check source in the traceback, and the recorded outputs appear in the
repository.  Those parts are modelled from the spec where noted.

All arithmetic is embedded exactly: ratings and factors are rationals,
raw identifiers are integers, dense indices are naturals, and the cosine
scores of the similarity index are real numbers derived from the rational
factor rows.
-/

namespace RecSys

/-- One row of the ratings dataframe: `userId`, `movieId`, `rating`
(`ratings.csv` as loaded in the notebook). -/
structure RatingRecord where
  userId : ℤ
  movieId : ℤ
  rating : ℚ
  deriving DecidableEq, Repr

/-- `np.unique` applied to a column: the distinct values in ascending
order.  (numpy returns the sorted unique values.) -/
def npUnique (l : List ℤ) : List ℤ :=
  List.insertionSort (fun a b => a ≤ b) l.dedup

/-- The raw-id to dense-index mapping built by
`dict(zip(np.unique(col), list(range(n))))` in `create_X`: the dense index
of a raw id is its position in the sorted distinct id list. -/
def toDense (ids : List ℤ) (x : ℤ) : ℕ :=
  List.indexOf x (npUnique ids)

/-- The dense-index to raw-id mapping built by
`dict(zip(list(range(n)), np.unique(col)))` in `create_X`. -/
def toRaw (ids : List ℤ) (i : ℕ) : ℤ :=
  (npUnique ids).getD i 0

/-- Operational model of scipy's
`csr_matrix((data, (row_ind, col_ind)), shape)` constructor: starting from
the all-zero matrix, each data triple is accumulated with `+=` at its
coordinates, so duplicate coordinates sum. -/
def cooAccum (triples : List (ℚ × ℕ × ℕ)) : ℕ → ℕ → ℚ :=
  triples.foldl
    (fun A t => fun r c => if r = t.2.1 ∧ c = t.2.2 then A r c + t.1 else A r c)
    (fun _ _ => 0)

/-- The result tuple of `create_X`: the sparse matrix `X` (movies by
users) and the four mapper dictionaries. -/
structure CreateXResult where
  X : ℕ → ℕ → ℚ
  user_mapper : ℤ → ℕ
  movie_mapper : ℤ → ℕ
  user_inv_mapper : ℕ → ℤ
  movie_inv_mapper : ℕ → ℤ

/-- `create_X(df)` from the notebook: builds the four mappers from the
sorted distinct `userId` / `movieId` columns and the `(M, N)` sparse
matrix `csr_matrix((df.rating, (movie_index, user_index)))`. -/
def create_X (df : List RatingRecord) : CreateXResult :=
  let userIds := df.map RatingRecord.userId
  let movieIds := df.map RatingRecord.movieId
  let user_index := df.map fun r => toDense userIds r.userId
  let movie_index := df.map fun r => toDense movieIds r.movieId
  let data := df.map RatingRecord.rating
  { X := cooAccum (data.zip (movie_index.zip user_index))
    user_mapper := toDense userIds
    movie_mapper := toDense movieIds
    user_inv_mapper := toRaw userIds
    movie_inv_mapper := toRaw movieIds }

/-! ### The ALS trainer

The alternating-least-squares engine itself lives in the external
`implicit` package (`implicit.als.AlternatingLeastSquares`), whose source
is not part of this repository; only `model.fit(X)` and the recorded
runtime output appear in the notebook.  It is modelled here from the
spec, section 4.3. -/

/-- A length-`k` latent factor row. -/
abbrev Vec (k : ℕ) := Fin k → ℚ

/-- Dot product of two factor rows. -/
def dotV {k : ℕ} (v w : Vec k) : ℚ := ∑ a, v a * w a

/-- Modelled from the spec: the per-entity normal-equation matrix
`XᵀC_iX + λI` of section 4.3, with `F` the held-fixed factor rows and `c`
the per-interaction confidences of the entity being solved. -/
def normalMat {n k : ℕ} (F : Fin n → Vec k) (c : Fin n → ℚ) (lam : ℚ) :
    Matrix (Fin k) (Fin k) ℚ :=
  Matrix.of fun a b => (∑ u, c u * F u a * F u b) + (if a = b then lam else 0)

/-- Modelled from the spec: the per-entity right-hand side `XᵀC_ip_i`. -/
def normalVec {n k : ℕ} (F : Fin n → Vec k) (c p : Fin n → ℚ) : Vec k :=
  fun a => ∑ u, c u * p u * F u a

/-- Exact linear solve by Cramer's rule, `det(A)⁻¹ · adj(A) · b`
(the small dense k-by-k solve of spec section 9). -/
def solveLinear {k : ℕ} (A : Matrix (Fin k) (Fin k) ℚ) (b : Vec k) : Vec k :=
  (A.det)⁻¹ • (A.adjugate.mulVec b)

/-- Modelled from the spec: preference indicator `p(u,i) = 1` if an
interaction with positive weight exists, else `0`. -/
def pref (w : ℚ) : ℚ := if 0 < w then 1 else 0

/-- Modelled from the spec: confidence `c(u,i) = 1 + α · weight(u,i)`
with the confidence transform as an explicit configuration option. -/
def confidence (alpha w : ℚ) : ℚ := 1 + alpha * w

/-- The ALS training state: one factor row per user and one per item. -/
structure ALSState (M N k : ℕ) where
  userF : Fin N → Vec k
  itemF : Fin M → Vec k

/-- Modelled from the spec: the item half-step — hold the user factors
fixed and solve the regularized normal equations
`(XᵀC_iX + λI) y_i = XᵀC_ip_i` for every item independently; a singular
per-item system would surface as `none`. -/
def itemPass {M N k : ℕ} (Xmat : Fin M → Fin N → ℚ) (alpha lam : ℚ)
    (U : Fin N → Vec k) : Option (Fin M → Vec k) :=
  if ∀ i : Fin M,
      (normalMat U (fun u => confidence alpha (Xmat i u)) lam).det ≠ 0 then
    some fun i =>
      solveLinear (normalMat U (fun u => confidence alpha (Xmat i u)) lam)
        (normalVec U (fun u => confidence alpha (Xmat i u))
          (fun u => pref (Xmat i u)))
  else none

/-- Modelled from the spec: the user half-step, symmetric to the item
half-step, holding the item factors fixed. -/
def userPass {M N k : ℕ} (Xmat : Fin M → Fin N → ℚ) (alpha lam : ℚ)
    (V : Fin M → Vec k) : Option (Fin N → Vec k) :=
  if ∀ u : Fin N,
      (normalMat V (fun i => confidence alpha (Xmat i u)) lam).det ≠ 0 then
    some fun u =>
      solveLinear (normalMat V (fun i => confidence alpha (Xmat i u)) lam)
        (normalVec V (fun i => confidence alpha (Xmat i u))
          (fun i => pref (Xmat i u)))
  else none

/-- One full ALS round: item pass, then user pass against the updated
item factors (spec section 4.3, step 2). -/
def alsRound {M N k : ℕ} (Xmat : Fin M → Fin N → ℚ) (alpha lam : ℚ)
    (s : ALSState M N k) : Option (ALSState M N k) :=
  (itemPass Xmat alpha lam s.userF).bind fun V' =>
    (userPass Xmat alpha lam V').bind fun U' =>
      some ⟨U', V'⟩

/-- Modelled from the spec: seeded deterministic pseudo-random draw
("small random values (configurable seed for determinism)"), as a linear
congruential generator. -/
def lcg (x : ℕ) : ℕ := (1103515245 * x + 12345) % 2 ^ 31

/-- One initial factor entry in `[0, 1)`, derived from the seed. -/
def initVal (seed idx : ℕ) : ℚ := ((lcg (seed + idx)) % 1000 : ℕ) / 1000

/-- The seeded initial training state. -/
def initState (M N k seed : ℕ) : ALSState M N k :=
  ⟨fun u a => initVal seed (u.val * k + a.val),
   fun i a => initVal seed (N * k + i.val * k + a.val)⟩

/-- Run a fixed number of ALS rounds (no early stopping). -/
def fitLoop {M N k : ℕ} (Xmat : Fin M → Fin N → ℚ) (alpha lam : ℚ) :
    ℕ → ALSState M N k → Option (ALSState M N k)
  | 0, s => some s
  | n + 1, s => (alsRound Xmat alpha lam s).bind (fitLoop Xmat alpha lam n)

/-- `model.fit(X)`: run `iters` ALS rounds from the seeded
initialization (modelled from the spec, section 4.3). -/
def fit {M N k : ℕ} (Xmat : Fin M → Fin N → ℚ) (alpha lam : ℚ)
    (iters seed : ℕ) : Option (ALSState M N k) :=
  fitLoop Xmat alpha lam iters (initState M N k seed)

/-- Modelled from the spec: the regularized least-squares objective of a
single entity row, `Σ_u c_u (p_u − f_u·y)² + λ‖y‖²`. -/
def rowObj {n k : ℕ} (F : Fin n → Vec k) (c p : Fin n → ℚ) (lam : ℚ)
    (y : Vec k) : ℚ :=
  (∑ u, c u * (p u - dotV (F u) y)^2) + lam * dotV y y

/-- Modelled from the spec: the full ALS training objective
`Σ_{u,i} c(u,i)(p(u,i) − x_u·y_i)² + λ(Σ_u‖x_u‖² + Σ_i‖y_i‖²)`. -/
def totalObj {M N k : ℕ} (Xmat : Fin M → Fin N → ℚ) (alpha lam : ℚ)
    (s : ALSState M N k) : ℚ :=
  (∑ i, ∑ u, confidence alpha (Xmat i u)
    * (pref (Xmat i u) - dotV (s.userF u) (s.itemF i))^2)
  + lam * ((∑ u, dotV (s.userF u) (s.userF u))
    + ∑ i, dotV (s.itemF i) (s.itemF i))

/-! ### Determinism of training -/

/-- A training run as a relation: `TrainRun Xmat alpha lam n s t` holds
when `n` complete ALS rounds (item pass then user pass) starting from
state `s` reach state `t`. -/
inductive TrainRun {M N k : ℕ} (Xmat : Fin M → Fin N → ℚ) (alpha lam : ℚ) :
    ℕ → ALSState M N k → ALSState M N k → Prop
  | zero (s : ALSState M N k) : TrainRun Xmat alpha lam 0 s s
  | succ {n : ℕ} {s t : ALSState M N k} {V' : Fin M → Vec k}
      {U' : Fin N → Vec k} :
      TrainRun Xmat alpha lam n s t →
      itemPass Xmat alpha lam t.userF = some V' →
      userPass Xmat alpha lam V' = some U' →
      TrainRun Xmat alpha lam (n + 1) s ⟨U', V'⟩

/-! ### Top-K retrieval: `model.recommend`

`recommend` lives in the external `implicit` package; the notebook's
recorded traceback shows its shape check verbatim
(`implicit/cpu/matrix_factorization_base.py`, lines 47-49):
`user_count = 1 if np.isscalar(userid) else len(userid)` followed by
`if user_items.shape[0] != user_count: raise ValueError(...)`.
The rest of the operation is modelled from spec section 4.6. -/

/-- The error taxonomy of spec section 7 relevant to retrieval. -/
inductive RecError
  | ShapeMismatch
  | IndexOutOfRange
  deriving DecidableEq, Repr

/-- Ranking order on candidate items: strictly larger score first, ties
broken by ascending dense index (spec sections 4.5/4.6). -/
def scoreOrder {M : ℕ} (sc : Fin M → ℚ) (a b : Fin M) : Prop :=
  sc b < sc a ∨ (sc a = sc b ∧ a ≤ b)

instance {M : ℕ} (sc : Fin M → ℚ) : DecidableRel (scoreOrder sc) :=
  fun a b => inferInstanceAs (Decidable (_ ∨ _))

/-- Candidate filter of `recommend`: with `filterAlreadyLiked` set, items
with a nonzero entry in the user's interaction row are dropped; items in
`excludeItems` are dropped unconditionally (spec section 4.6). -/
def keepItem {M : ℕ} (row : List ℚ) (flt : Bool)
    (excl : List (Fin M)) (i : Fin M) : Prop :=
  (flt = true → row.getD i.val 0 = 0) ∧ i ∉ excl

instance {M : ℕ} (row : List ℚ) (flt : Bool) (excl : List (Fin M))
    (i : Fin M) : Decidable (keepItem row flt excl i) :=
  inferInstanceAs (Decidable (_ ∧ _))

/-- Modelled from the spec (section 4.6) plus the shape check recorded in
the traceback: `recommend(userIndex, userInteractionRow, K, ...)` checks
that the supplied interaction rows are exactly one row for the queried
user, resolves the user factor, scores every item by the dot product with
the user factor, filters, and returns the top `K` indices by descending
score with ties broken by ascending dense index. -/
def recommend {M N k : ℕ} (s : ALSState M N k) (userid : ℕ)
    (userItems : List (List ℚ)) (K : ℕ) (filterAlreadyLiked : Bool)
    (excludeItems : List (Fin M)) : Except RecError (List (Fin M)) :=
  if userItems.length ≠ 1 then
    .error .ShapeMismatch
  else if h : userid < N then
    .ok ((((List.finRange M).filter
      (fun i => decide (keepItem (userItems.headD []) filterAlreadyLiked
        excludeItems i))).insertionSort
        (scoreOrder (fun i =>
          dotV (s.itemF i) (s.userF ⟨userid, h⟩)))).take K)
  else
    .error .IndexOutOfRange

/-- Modelled from the spec (sections 4.4/4.5): the cosine similarity of
item `j` to the queried item `i` under the L2-normalized factor view, as
a real number. -/
noncomputable def cosSim {M k : ℕ} (V : Fin M → Vec k) (i j : Fin M) : ℝ :=
  ((dotV (V i) (V j) : ℚ) : ℝ)
    / (Real.sqrt ((dotV (V i) (V i) : ℚ) : ℝ)
       * Real.sqrt ((dotV (V j) (V j) : ℚ) : ℝ))

/-- Exact rational test deciding `cosSim V i b < cosSim V i a`. -/
def cosGtQ {M k : ℕ} (V : Fin M → Vec k) (i a b : Fin M) : Prop :=
  (0 < dotV (V i) (V a) ∧ (dotV (V i) (V b) ≤ 0
      ∨ (dotV (V i) (V b))^2 * dotV (V a) (V a)
        < (dotV (V i) (V a))^2 * dotV (V b) (V b)))
  ∨ (dotV (V i) (V a) = 0 ∧ dotV (V i) (V b) < 0)
  ∨ (dotV (V i) (V a) < 0 ∧ dotV (V i) (V b) < 0
      ∧ (dotV (V i) (V a))^2 * dotV (V b) (V b)
        < (dotV (V i) (V b))^2 * dotV (V a) (V a))

instance {M k : ℕ} (V : Fin M → Vec k) (i a b : Fin M) :
    Decidable (cosGtQ V i a b) :=
  inferInstanceAs (Decidable (_ ∨ _))

/-- Ranking order of `similar_items`: strictly larger cosine first, ties
broken by ascending dense index. -/
def simOrder {M k : ℕ} (V : Fin M → Vec k) (i : Fin M) (a b : Fin M) :
    Prop :=
  cosGtQ V i a b ∨ (¬ cosGtQ V i a b ∧ ¬ cosGtQ V i b a ∧ a ≤ b)

instance {M k : ℕ} (V : Fin M → Vec k) (i : Fin M) :
    DecidableRel (simOrder V i) :=
  fun _ _ => inferInstanceAs (Decidable (_ ∨ _))

/-- `model.similar_items(itemIndex, K)`: rank all items by cosine
similarity of factor rows to the queried item, descending, ties broken by
ascending dense index, and return the top `K` indices (modelled from spec
section 4.5 and the notebook's recorded output). -/
def similar_items {M k : ℕ} (V : Fin M → Vec k) (i : Fin M) (K : ℕ) :
    List (Fin M) :=
  ((List.finRange M).insertionSort (simOrder V i)).take K


/-! ### Theorems -/

/-! ### Basic facts about `npUnique` and the mappers -/

theorem npUnique_perm_dedup (l : List ℤ) : (npUnique l).Perm l.dedup :=
  List.perm_insertionSort _ _

theorem npUnique_nodup (l : List ℤ) : (npUnique l).Nodup :=
  ((npUnique_perm_dedup l).nodup_iff).mpr (List.nodup_dedup l)

theorem npUnique_sorted_le (l : List ℤ) :
    List.Sorted (fun a b => a ≤ b) (npUnique l) :=
  List.sorted_insertionSort _ _

theorem mem_npUnique {x : ℤ} {l : List ℤ} : x ∈ npUnique l ↔ x ∈ l := by
  rw [(npUnique_perm_dedup l).mem_iff, List.mem_dedup]

theorem toDense_lt {ids : List ℤ} {x : ℤ} (hx : x ∈ ids) :
    toDense ids x < (npUnique ids).length := by
  rw [toDense, List.indexOf_lt_length]
  exact mem_npUnique.mpr hx

theorem toRaw_toDense {ids : List ℤ} {x : ℤ} (hx : x ∈ ids) :
    toRaw ids (toDense ids x) = x := by
  have h := toDense_lt hx
  rw [toRaw, List.getD_eq_getElem _ _ h]
  exact List.getElem_indexOf h

theorem toDense_getElem (ids : List ℤ) (i : ℕ)
    (h : i < (npUnique ids).length) :
    toDense ids ((npUnique ids)[i]) = i := by
  have := List.get_indexOf (npUnique_nodup ids) ⟨i, h⟩
  simpa [toDense, List.get_eq_getElem] using this

theorem npUnique_map_toDense (ids : List ℤ) :
    (npUnique ids).map (toDense ids) = List.range (npUnique ids).length := by
  apply List.ext_getElem
  · simp
  · intro i h1 h2
    have hi : i < (npUnique ids).length := by simpa using h1
    simp only [List.getElem_map, List.getElem_range]
    exact toDense_getElem ids i hi

theorem npUnique_sorted_lt (l : List ℤ) :
    List.Sorted (fun a b => a < b) (npUnique l) :=
  List.Sorted.lt_of_le (npUnique_sorted_le l) (npUnique_nodup l)

theorem npUnique_eq_of_toFinset_eq {l l' : List ℤ}
    (h : l.toFinset = l'.toFinset) : npUnique l = npUnique l' := by
  have hperm : (npUnique l).Perm (npUnique l') :=
    ((npUnique_perm_dedup l).trans
      (List.toFinset_eq_iff_perm_dedup.mp h)).trans
      (npUnique_perm_dedup l').symm
  exact List.eq_of_perm_of_sorted hperm
    (npUnique_sorted_le l) (npUnique_sorted_le l')

/-! ### Accumulation semantics of the sparse-matrix constructor -/

theorem cooAccum_go (triples : List (ℚ × ℕ × ℕ)) (A : ℕ → ℕ → ℚ)
    (r c : ℕ) :
    (triples.foldl
      (fun A t => fun r c =>
        if r = t.2.1 ∧ c = t.2.2 then A r c + t.1 else A r c) A) r c
    = A r c
      + (((triples.filter fun t => t.2.1 = r ∧ t.2.2 = c).map Prod.fst).sum) := by
  induction triples generalizing A with
  | nil => simp
  | cons t ts ih =>
    simp only [List.foldl_cons, List.filter_cons]
    rw [ih]
    by_cases hm : t.2.1 = r ∧ t.2.2 = c
    · obtain ⟨h1, h2⟩ := hm
      subst h1
      subst h2
      simp
      ring
    · have hrc : ¬ (r = t.2.1 ∧ c = t.2.2) := fun hc => hm ⟨hc.1.symm, hc.2.symm⟩
      simp [hm, hrc]

theorem cooAccum_eq_sum (triples : List (ℚ × ℕ × ℕ)) (r c : ℕ) :
    cooAccum triples r c
    = (((triples.filter fun t => t.2.1 = r ∧ t.2.2 = c).map Prod.fst).sum) := by
  rw [cooAccum, cooAccum_go]
  simp

theorem zip3_map (df : List RatingRecord) (f : RatingRecord → ℚ)
    (g h : RatingRecord → ℕ) :
    (df.map f).zip ((df.map g).zip (df.map h))
    = df.map fun r => (f r, g r, h r) := by
  rw [List.zip_map', List.zip_map']

theorem sum_filter_triple (df : List RatingRecord)
    (F : RatingRecord → ℚ × ℕ × ℕ) (r c : ℕ) :
    (((df.map F).filter fun t => t.2.1 = r ∧ t.2.2 = c).map Prod.fst).sum
    = ((df.filter fun x => (F x).2.1 = r ∧ (F x).2.2 = c).map
        fun x => (F x).1).sum := by
  induction df with
  | nil => simp
  | cons x xs ih =>
    simp only [List.map_cons, List.filter_cons, Bool.decide_and] at ih ⊢
    by_cases h1 : (F x).2.1 = r
    · by_cases h2 : (F x).2.2 = c
      · simp [h1, h2, ih]
      · simp [h1, h2, ih]
    · simp [h1, ih]

theorem create_X_entry (df : List RatingRecord) (m u : ℕ) :
    (create_X df).X m u
    = ((df.filter fun r =>
          toDense (df.map RatingRecord.movieId) r.movieId = m ∧
          toDense (df.map RatingRecord.userId) r.userId = u).map
        RatingRecord.rating).sum := by
  show cooAccum _ m u = _
  rw [zip3_map df RatingRecord.rating
    (fun r => toDense (df.map RatingRecord.movieId) r.movieId)
    (fun r => toDense (df.map RatingRecord.userId) r.userId)]
  rw [cooAccum_eq_sum, sum_filter_triple]

/-- C3: for every raw id list, the raw-to-dense and dense-to-raw mappings
built by `create_X` are mutually inverse on the ids present at build time,
every assigned dense index is in range, the dense indices of the distinct
ids are exactly the contiguous range `[0, N)` with no gaps or duplicates,
and the underlying distinct id list has no duplicates. -/
theorem c3_mapper_bijection (ids : List ℤ) :
    (∀ x ∈ ids,
      toRaw ids (toDense ids x) = x
      ∧ toDense ids x < (npUnique ids).length)
    ∧ (npUnique ids).map (toDense ids) = List.range (npUnique ids).length
    ∧ (npUnique ids).Nodup :=
  ⟨fun _ hx => ⟨toRaw_toDense hx, toDense_lt hx⟩,
   npUnique_map_toDense ids, npUnique_nodup ids⟩

/-- Witness for C3 at the concrete id list `[5, 2, 9, 2]` and raw id `2`. -/
theorem c3_mapper_bijection_witness :
    toRaw [5, 2, 9, 2] (toDense [5, 2, 9, 2] 2) = 2 :=
  (((c3_mapper_bijection [5, 2, 9, 2]).1 2 (by decide))).1

/-- C6: `create_X`'s mapper construction assigns dense index `i` to the
`i`-th identifier in ascending sorted order of the distinct raw
identifiers, and rebuilding from any list with the same set of raw ids
yields the identical mapper (determinism over the input set). -/
theorem c6_sorted_assignment_deterministic :
    (∀ ids : List ℤ,
      List.Sorted (fun a b => a < b) (npUnique ids)
      ∧ ∀ i (h : i < (npUnique ids).length),
          toDense ids ((npUnique ids)[i]) = i)
    ∧ ∀ ids ids' : List ℤ, ids.toFinset = ids'.toFinset →
        npUnique ids = npUnique ids'
        ∧ toDense ids = toDense ids'
        ∧ toRaw ids = toRaw ids' := by
  constructor
  · intro ids
    exact ⟨npUnique_sorted_lt ids, fun i h => toDense_getElem ids i h⟩
  · intro ids ids' h
    have hu : npUnique ids = npUnique ids' := npUnique_eq_of_toFinset_eq h
    refine ⟨hu, ?_, ?_⟩
    · funext x
      rw [toDense, toDense, hu]
    · funext i
      rw [toRaw, toRaw, hu]

/-- Witness for C6: two different lists with the same id set yield the
identical sorted distinct list. -/
theorem c6_sorted_assignment_deterministic_witness :
    npUnique [3, 1, 3] = npUnique [1, 1, 3, 3]
    ∧ toDense [3, 1, 3] = toDense [1, 1, 3, 3]
    ∧ toRaw [3, 1, 3] = toRaw [1, 1, 3, 3] :=
  c6_sorted_assignment_deterministic.2 [3, 1, 3] [1, 1, 3, 3] (by decide)

/-- C10: for every record list, the sparse matrix built by `create_X`
stores at each dense coordinate the SUM of the ratings of all records
mapping there (scipy's COO-duplicate summation), and on a concrete input
with a duplicated `(userId, movieId)` pair it stores the sum `5 + 1`, not
the last value `1`. -/
theorem c10_csr_sums_duplicates :
    (∀ df : List RatingRecord, ∀ m u : ℕ,
      (create_X df).X m u
      = ((df.filter fun r =>
            toDense (df.map RatingRecord.movieId) r.movieId = m ∧
            toDense (df.map RatingRecord.userId) r.userId = u).map
          RatingRecord.rating).sum)
    ∧ (create_X [⟨7, 3, 5⟩, ⟨7, 3, 1⟩]).X 0 0 = 5 + 1
    ∧ (create_X [⟨7, 3, 5⟩, ⟨7, 3, 1⟩]).X 0 0 ≠ 1 := by
  refine ⟨create_X_entry, ?_, ?_⟩ <;>
    norm_num [create_X, cooAccum, toDense, npUnique,
      List.insertionSort, List.orderedInsert]

theorem dotV_comm {k : ℕ} (v w : Vec k) : dotV v w = dotV w v := by
  unfold dotV
  exact Finset.sum_congr rfl fun a _ => mul_comm _ _

theorem dotV_sub_right {k : ℕ} (v w x : Vec k) :
    dotV v (w - x) = dotV v w - dotV v x := by
  unfold dotV
  rw [← Finset.sum_sub_distrib]
  exact Finset.sum_congr rfl fun a _ => by simp [mul_sub]

theorem dotV_self_nonneg {k : ℕ} (v : Vec k) : 0 ≤ dotV v v :=
  Finset.sum_nonneg fun a _ => mul_self_nonneg (v a)

theorem dotV_self_pos {k : ℕ} {v : Vec k} (hv : v ≠ 0) : 0 < dotV v v := by
  have hex : ∃ a, v a ≠ 0 := by
    by_contra hall
    push_neg at hall
    exact hv (funext hall)
  obtain ⟨a, ha⟩ := hex
  exact Finset.sum_pos'
    (fun b _ => mul_self_nonneg (v b))
    ⟨a, Finset.mem_univ a, mul_self_pos.mpr ha⟩

/-- Row `a` of the normal-equation matrix applied to a vector. -/
theorem mulVec_normalMat {n k : ℕ} (F : Fin n → Vec k) (c : Fin n → ℚ)
    (lam : ℚ) (w : Vec k) (a : Fin k) :
    (normalMat F c lam).mulVec w a
    = (∑ u, c u * F u a * dotV (F u) w) + lam * w a := by
  unfold normalMat Matrix.mulVec Matrix.dotProduct dotV
  simp only [Matrix.of_apply, add_mul, Finset.sum_add_distrib, ite_mul, zero_mul]
  congr 1
  · calc ∑ b, (∑ u, c u * F u a * F u b) * w b
        = ∑ b, ∑ u, c u * F u a * F u b * w b :=
          Finset.sum_congr rfl fun b _ => Finset.sum_mul _ _ _
      _ = ∑ u, ∑ b, c u * F u a * F u b * w b := Finset.sum_comm
      _ = ∑ u, c u * F u a * ∑ b, F u b * w b := by
          refine Finset.sum_congr rfl fun u _ => ?_
          rw [Finset.mul_sum]
          exact Finset.sum_congr rfl fun b _ => by ring
  · rw [Finset.sum_ite_eq Finset.univ a (fun b => lam * w b)]
    simp

/-- The bilinear form of the normal-equation matrix, in closed form. -/
theorem bilin_normalMat {n k : ℕ} (F : Fin n → Vec k) (c : Fin n → ℚ)
    (lam : ℚ) (v w : Vec k) :
    dotV v ((normalMat F c lam).mulVec w)
    = (∑ u, c u * dotV (F u) v * dotV (F u) w) + lam * dotV v w := by
  unfold dotV
  calc ∑ a, v a * (normalMat F c lam).mulVec w a
      = ∑ a, v a * ((∑ u, c u * F u a * dotV (F u) w) + lam * w a) :=
        Finset.sum_congr rfl fun a _ => by rw [mulVec_normalMat]
    _ = (∑ a, ∑ u, v a * (c u * F u a * dotV (F u) w)) + ∑ a, v a * (lam * w a) := by
        simp only [mul_add, Finset.sum_add_distrib, Finset.mul_sum]
    _ = (∑ u, ∑ a, v a * (c u * F u a * dotV (F u) w)) + lam * ∑ a, v a * w a := by
        rw [Finset.sum_comm, Finset.mul_sum]
        congr 1
        exact Finset.sum_congr rfl fun a _ => by ring
    _ = (∑ u, c u * (∑ a, F u a * v a) * dotV (F u) w) + lam * ∑ a, v a * w a := by
        congr 1
        refine Finset.sum_congr rfl fun u _ => ?_
        rw [Finset.mul_sum, Finset.sum_mul]
        exact Finset.sum_congr rfl fun a _ => by ring

/-- The quadratic form of the normal-equation matrix is nonnegative when
all confidences and the regularization are nonnegative. -/
theorem quad_normalMat_nonneg {n k : ℕ} (F : Fin n → Vec k)
    {c : Fin n → ℚ} {lam : ℚ} (hc : ∀ u, 0 ≤ c u) (hlam : 0 ≤ lam)
    (v : Vec k) :
    0 ≤ dotV v ((normalMat F c lam).mulVec v) := by
  rw [bilin_normalMat]
  have h1 : 0 ≤ ∑ u, c u * dotV (F u) v * dotV (F u) v :=
    Finset.sum_nonneg fun u _ => by
      rw [mul_assoc]
      exact mul_nonneg (hc u) (mul_self_nonneg _)
  exact add_nonneg h1 (mul_nonneg hlam (dotV_self_nonneg v))

/-- With strictly positive regularization and nonnegative confidences the
normal-equation matrix is non-singular: the regularization guard of spec
section 4.3. -/
theorem normalMat_det_ne_zero {n k : ℕ} (F : Fin n → Vec k)
    {c : Fin n → ℚ} {lam : ℚ} (hc : ∀ u, 0 ≤ c u) (hlam : 0 < lam) :
    (normalMat F c lam).det ≠ 0 := by
  intro hdet
  obtain ⟨v, hv0, hmv⟩ := Matrix.exists_mulVec_eq_zero_iff.mpr hdet
  have h0 : dotV v ((normalMat F c lam).mulVec v) = 0 := by
    rw [hmv]
    simp [dotV]
  rw [bilin_normalMat] at h0
  have h1 : 0 ≤ ∑ u, c u * dotV (F u) v * dotV (F u) v :=
    Finset.sum_nonneg fun u _ => by
      rw [mul_assoc]
      exact mul_nonneg (hc u) (mul_self_nonneg _)
  have h2 : 0 < lam * dotV v v := mul_pos hlam (dotV_self_pos hv0)
  linarith

theorem solveLinear_spec {k : ℕ} {A : Matrix (Fin k) (Fin k) ℚ}
    (hA : A.det ≠ 0) (b : Vec k) :
    A.mulVec (solveLinear A b) = b := by
  unfold solveLinear
  rw [Matrix.mulVec_smul, Matrix.mulVec_mulVec, Matrix.mul_adjugate,
    Matrix.smul_mulVec_assoc, Matrix.one_mulVec, smul_smul,
    inv_mul_cancel₀ hA, one_smul]

theorem confidence_nonneg {alpha w : ℚ} (halpha : 0 ≤ alpha) (hw : 0 ≤ w) :
    0 ≤ confidence alpha w := by
  unfold confidence
  nlinarith

theorem itemPass_eq {M N k : ℕ} {Xmat : Fin M → Fin N → ℚ}
    {alpha lam : ℚ} (halpha : 0 ≤ alpha) (hX : ∀ i u, 0 ≤ Xmat i u)
    (hlam : 0 < lam) (U : Fin N → Vec k) :
    itemPass Xmat alpha lam U
    = some fun i =>
        solveLinear (normalMat U (fun u => confidence alpha (Xmat i u)) lam)
          (normalVec U (fun u => confidence alpha (Xmat i u))
            (fun u => pref (Xmat i u))) := by
  unfold itemPass
  rw [if_pos]
  intro i
  exact normalMat_det_ne_zero U
    (fun u => confidence_nonneg halpha (hX i u)) hlam

theorem userPass_eq {M N k : ℕ} {Xmat : Fin M → Fin N → ℚ}
    {alpha lam : ℚ} (halpha : 0 ≤ alpha) (hX : ∀ i u, 0 ≤ Xmat i u)
    (hlam : 0 < lam) (V : Fin M → Vec k) :
    userPass Xmat alpha lam V
    = some fun u =>
        solveLinear (normalMat V (fun i => confidence alpha (Xmat i u)) lam)
          (normalVec V (fun i => confidence alpha (Xmat i u))
            (fun i => pref (Xmat i u))) := by
  unfold userPass
  rw [if_pos]
  intro u
  exact normalMat_det_ne_zero V
    (fun i => confidence_nonneg halpha (hX i u)) hlam

theorem alsRound_isSome {M N k : ℕ} {Xmat : Fin M → Fin N → ℚ}
    {alpha lam : ℚ} (halpha : 0 ≤ alpha) (hX : ∀ i u, 0 ≤ Xmat i u)
    (hlam : 0 < lam) (s : ALSState M N k) :
    ∃ s', alsRound Xmat alpha lam s = some s' := by
  unfold alsRound
  simp only [itemPass_eq halpha hX hlam, userPass_eq halpha hX hlam,
    Option.some_bind]
  exact ⟨_, rfl⟩

theorem fitLoop_isSome {M N k : ℕ} {Xmat : Fin M → Fin N → ℚ}
    {alpha lam : ℚ} (halpha : 0 ≤ alpha) (hX : ∀ i u, 0 ≤ Xmat i u)
    (hlam : 0 < lam) (n : ℕ) (s : ALSState M N k) :
    ∃ t, fitLoop Xmat alpha lam n s = some t := by
  induction n generalizing s with
  | zero => exact ⟨s, rfl⟩
  | succ m ih =>
    obtain ⟨s', hs'⟩ := alsRound_isSome halpha hX hlam s
    obtain ⟨t, ht⟩ := ih s'
    refine ⟨t, ?_⟩
    unfold fitLoop
    rw [hs', Option.some_bind]
    exact ht

/-- C1: with nonnegative interaction weights, a nonnegative confidence
scaling and the default strictly positive regularization, every
per-entity normal-equation system `XᵀCX + λI` that training can solve is
non-singular, and `model.fit` succeeds on every interaction matrix —
sparse or degenerate data included — for every round count: degeneracy is
absorbed by the regularization guard and never surfaced.
(Spec-modelled: the ALS implementation is the external `implicit`
package, modelled here from spec section 4.3.) -/
theorem c1_training_never_fails {M N k : ℕ} (Xmat : Fin M → Fin N → ℚ)
    (alpha lam : ℚ) (iters seed : ℕ) (halpha : 0 ≤ alpha)
    (hX : ∀ i u, 0 ≤ Xmat i u) (hlam : 0 < lam) :
    (∀ (n : ℕ) (F : Fin n → Vec k) (c : Fin n → ℚ),
      (∀ u, 0 ≤ c u) → (normalMat F c lam).det ≠ 0)
    ∧ ∃ t : ALSState M N k, fit Xmat alpha lam iters seed = some t :=
  ⟨fun _ F _ hc => normalMat_det_ne_zero F hc hlam,
   fitLoop_isSome halpha hX hlam iters _⟩

/-- Witness for C1 at a fully degenerate concrete input: one user, one
item, an all-zero interaction matrix, two training rounds. -/
theorem c1_training_never_fails_witness :
    (∀ (n : ℕ) (F : Fin n → Vec 1) (c : Fin n → ℚ),
      (∀ u, 0 ≤ c u) → (normalMat F c (1/100)).det ≠ 0)
    ∧ ∃ t : ALSState 1 1 1,
        fit (fun _ _ => (0 : ℚ)) 0 (1/100) 2 7 = some t :=
  c1_training_never_fails (fun _ _ => 0) 0 (1/100) 2 7 le_rfl
    (fun _ _ => le_rfl) (by norm_num)

/-! ### The training objective and its monotone decrease -/

theorem dotV_sub_left {k : ℕ} (v w x : Vec k) :
    dotV (v - w) x = dotV v x - dotV w x := by
  rw [dotV_comm, dotV_sub_right, dotV_comm x v, dotV_comm x w]

theorem normalVec_dot {n k : ℕ} (F : Fin n → Vec k) (c p : Fin n → ℚ)
    (y : Vec k) :
    dotV (normalVec F c p) y = ∑ u, c u * p u * dotV (F u) y := by
  unfold dotV normalVec
  calc ∑ a, (∑ u, c u * p u * F u a) * y a
      = ∑ a, ∑ u, c u * p u * F u a * y a :=
        Finset.sum_congr rfl fun a _ => Finset.sum_mul _ _ _
    _ = ∑ u, ∑ a, c u * p u * F u a * y a := Finset.sum_comm
    _ = ∑ u, c u * p u * ∑ a, F u a * y a := by
        refine Finset.sum_congr rfl fun u _ => ?_
        rw [Finset.mul_sum]
        exact Finset.sum_congr rfl fun a _ => by ring

/-- The per-row objective as a quadratic in `y`:
`Σ c p² − 2·b·y + yᵀAy` with `A` the normal matrix and `b` the
normal right-hand side. -/
theorem rowObj_eq {n k : ℕ} (F : Fin n → Vec k) (c p : Fin n → ℚ)
    (lam : ℚ) (y : Vec k) :
    rowObj F c p lam y
    = (∑ u, c u * (p u)^2) - 2 * dotV (normalVec F c p) y
      + dotV y ((normalMat F c lam).mulVec y) := by
  rw [normalVec_dot, bilin_normalMat, rowObj]
  rw [Finset.sum_congr rfl fun u _ => (by ring :
    c u * (p u - dotV (F u) y)^2
    = c u * (p u)^2 - 2 * (c u * p u * dotV (F u) y)
      + c u * dotV (F u) y * dotV (F u) y)]
  rw [Finset.sum_add_distrib, Finset.sum_sub_distrib]
  rw [show (∑ u, 2 * (c u * p u * dotV (F u) y))
    = 2 * ∑ u, c u * p u * dotV (F u) y from (Finset.mul_sum _ _ _).symm]
  ring

/-- The exact normal-equation solution minimizes the per-row objective
(the convexity argument behind ALS monotonicity). -/
theorem rowObj_min {n k : ℕ} {F : Fin n → Vec k} {c : Fin n → ℚ}
    (p : Fin n → ℚ) {lam : ℚ} (hc : ∀ u, 0 ≤ c u) (hlam : 0 ≤ lam)
    (hdet : (normalMat F c lam).det ≠ 0) (y : Vec k) :
    rowObj F c p lam (solveLinear (normalMat F c lam) (normalVec F c p))
    ≤ rowObj F c p lam y := by
  set A := normalMat F c lam with hA
  set b := normalVec F c p with hb
  set ys := solveLinear A b with hys
  have hAys : A.mulVec ys = b := solveLinear_spec hdet b
  have hby : dotV b y
      = (∑ u, c u * dotV (F u) y * dotV (F u) ys) + lam * dotV y ys := by
    rw [← hAys, dotV_comm, hA, bilin_normalMat]
  have hbys : dotV b ys
      = (∑ u, c u * dotV (F u) ys * dotV (F u) ys) + lam * dotV ys ys := by
    rw [← hAys, dotV_comm, hA, bilin_normalMat]
  have hq : 0 ≤ dotV (y - ys) (A.mulVec (y - ys)) :=
    quad_normalMat_nonneg F hc hlam (y - ys)
  have hqexp : dotV (y - ys) (A.mulVec (y - ys))
      = ((∑ u, c u * dotV (F u) y * dotV (F u) y)
          - 2 * ∑ u, c u * dotV (F u) y * dotV (F u) ys)
        + (∑ u, c u * dotV (F u) ys * dotV (F u) ys)
        + lam * (dotV y y - 2 * dotV y ys + dotV ys ys) := by
    rw [hA, bilin_normalMat]
    rw [Finset.sum_congr rfl fun u _ => (by
      rw [dotV_sub_right] : c u * dotV (F u) (y - ys) * dotV (F u) (y - ys)
        = c u * (dotV (F u) y - dotV (F u) ys)
          * (dotV (F u) y - dotV (F u) ys))]
    rw [Finset.sum_congr rfl fun u _ => (by ring :
      c u * (dotV (F u) y - dotV (F u) ys) * (dotV (F u) y - dotV (F u) ys)
      = c u * dotV (F u) y * dotV (F u) y
        - 2 * (c u * dotV (F u) y * dotV (F u) ys)
        + c u * dotV (F u) ys * dotV (F u) ys)]
    rw [Finset.sum_add_distrib, Finset.sum_sub_distrib]
    rw [show (∑ u, 2 * (c u * dotV (F u) y * dotV (F u) ys))
      = 2 * ∑ u, c u * dotV (F u) y * dotV (F u) ys from
        (Finset.mul_sum _ _ _).symm]
    rw [dotV_sub_left, dotV_sub_right, dotV_sub_right, dotV_comm ys y]
    ring
  rw [rowObj_eq, rowObj_eq, hby, hbys]
  have hyAy : dotV y (A.mulVec y)
      = (∑ u, c u * dotV (F u) y * dotV (F u) y) + lam * dotV y y := by
    rw [hA, bilin_normalMat]
  have hysAys : dotV ys (A.mulVec ys)
      = (∑ u, c u * dotV (F u) ys * dotV (F u) ys) + lam * dotV ys ys := by
    rw [hA, bilin_normalMat]
  rw [hyAy, hysAys]
  nlinarith [hq, hqexp]

/-- The training objective split by item rows (the user-norm part is
constant during the item pass). -/
theorem totalObj_item_decomp {M N k : ℕ} (Xmat : Fin M → Fin N → ℚ)
    (alpha lam : ℚ) (U : Fin N → Vec k) (V : Fin M → Vec k) :
    totalObj Xmat alpha lam ⟨U, V⟩
    = (∑ i, rowObj U (fun u => confidence alpha (Xmat i u))
        (fun u => pref (Xmat i u)) lam (V i))
      + lam * ∑ u, dotV (U u) (U u) := by
  unfold totalObj rowObj
  rw [Finset.sum_add_distrib]
  rw [show (∑ i : Fin M, lam * dotV (V i) (V i))
    = lam * ∑ i, dotV (V i) (V i) from (Finset.mul_sum _ _ _).symm]
  ring

/-- The training objective split by user rows (the item-norm part is
constant during the user pass). -/
theorem totalObj_user_decomp {M N k : ℕ} (Xmat : Fin M → Fin N → ℚ)
    (alpha lam : ℚ) (U : Fin N → Vec k) (V : Fin M → Vec k) :
    totalObj Xmat alpha lam ⟨U, V⟩
    = (∑ u, rowObj V (fun i => confidence alpha (Xmat i u))
        (fun i => pref (Xmat i u)) lam (U u))
      + lam * ∑ i, dotV (V i) (V i) := by
  unfold totalObj rowObj
  rw [Finset.sum_comm]
  rw [Finset.sum_congr rfl fun u _ => Finset.sum_congr rfl fun i _ =>
    (by rw [dotV_comm] : confidence alpha (Xmat i u)
      * (pref (Xmat i u) - dotV (U u) (V i))^2
      = confidence alpha (Xmat i u)
        * (pref (Xmat i u) - dotV (V i) (U u))^2)]
  rw [Finset.sum_add_distrib]
  rw [show (∑ u : Fin N, lam * dotV (U u) (U u))
    = lam * ∑ u, dotV (U u) (U u) from (Finset.mul_sum _ _ _).symm]
  ring

theorem itemPass_inv {M N k : ℕ} {Xmat : Fin M → Fin N → ℚ}
    {alpha lam : ℚ} {U : Fin N → Vec k} {V' : Fin M → Vec k}
    (h : itemPass Xmat alpha lam U = some V') :
    (∀ i : Fin M,
      (normalMat U (fun u => confidence alpha (Xmat i u)) lam).det ≠ 0)
    ∧ V' = fun i =>
        solveLinear (normalMat U (fun u => confidence alpha (Xmat i u)) lam)
          (normalVec U (fun u => confidence alpha (Xmat i u))
            (fun u => pref (Xmat i u))) := by
  unfold itemPass at h
  split_ifs at h with hg
  exact ⟨hg, (Option.some_injective _ h).symm⟩

theorem userPass_inv {M N k : ℕ} {Xmat : Fin M → Fin N → ℚ}
    {alpha lam : ℚ} {V : Fin M → Vec k} {U' : Fin N → Vec k}
    (h : userPass Xmat alpha lam V = some U') :
    (∀ u : Fin N,
      (normalMat V (fun i => confidence alpha (Xmat i u)) lam).det ≠ 0)
    ∧ U' = fun u =>
        solveLinear (normalMat V (fun i => confidence alpha (Xmat i u)) lam)
          (normalVec V (fun i => confidence alpha (Xmat i u))
            (fun i => pref (Xmat i u))) := by
  unfold userPass at h
  split_ifs at h with hg
  exact ⟨hg, (Option.some_injective _ h).symm⟩

/-- The item pass does not increase the training objective, whatever the
previous item factors were. -/
theorem itemPass_decreases {M N k : ℕ} {Xmat : Fin M → Fin N → ℚ}
    {alpha lam : ℚ} (halpha : 0 ≤ alpha) (hX : ∀ i u, 0 ≤ Xmat i u)
    (hlam : 0 ≤ lam) {U : Fin N → Vec k} {V' : Fin M → Vec k}
    (h : itemPass Xmat alpha lam U = some V') (V : Fin M → Vec k) :
    totalObj Xmat alpha lam ⟨U, V'⟩ ≤ totalObj Xmat alpha lam ⟨U, V⟩ := by
  obtain ⟨hdet, hV'⟩ := itemPass_inv h
  rw [totalObj_item_decomp, totalObj_item_decomp]
  refine add_le_add_right (Finset.sum_le_sum fun i _ => ?_) _
  rw [hV']
  exact rowObj_min _ (fun u => confidence_nonneg halpha (hX i u))
    hlam (hdet i) (V i)

/-- The user pass does not increase the training objective, whatever the
previous user factors were. -/
theorem userPass_decreases {M N k : ℕ} {Xmat : Fin M → Fin N → ℚ}
    {alpha lam : ℚ} (halpha : 0 ≤ alpha) (hX : ∀ i u, 0 ≤ Xmat i u)
    (hlam : 0 ≤ lam) {V : Fin M → Vec k} {U' : Fin N → Vec k}
    (h : userPass Xmat alpha lam V = some U') (U : Fin N → Vec k) :
    totalObj Xmat alpha lam ⟨U', V⟩ ≤ totalObj Xmat alpha lam ⟨U, V⟩ := by
  obtain ⟨hdet, hU'⟩ := userPass_inv h
  rw [totalObj_user_decomp, totalObj_user_decomp]
  refine add_le_add_right (Finset.sum_le_sum fun u _ => ?_) _
  rw [hU']
  exact rowObj_min _ (fun i => confidence_nonneg halpha (hX i u))
    hlam (hdet u) (U u)

/-- One full ALS round never increases the training objective. -/
theorem alsRound_decreases {M N k : ℕ} {Xmat : Fin M → Fin N → ℚ}
    {alpha lam : ℚ} (halpha : 0 ≤ alpha) (hX : ∀ i u, 0 ≤ Xmat i u)
    (hlam : 0 ≤ lam) {s s' : ALSState M N k}
    (h : alsRound Xmat alpha lam s = some s') :
    totalObj Xmat alpha lam s' ≤ totalObj Xmat alpha lam s := by
  unfold alsRound at h
  cases hi : itemPass Xmat alpha lam s.userF with
  | none => rw [hi] at h; exact absurd h (Option.noConfusion)
  | some V' =>
    rw [hi, Option.some_bind] at h
    cases hu : userPass Xmat alpha lam V' with
    | none => rw [hu] at h; exact absurd h (Option.noConfusion)
    | some U' =>
      rw [hu, Option.some_bind] at h
      have hs' : s' = ⟨U', V'⟩ := (Option.some_injective _ h).symm
      subst hs'
      calc totalObj Xmat alpha lam ⟨U', V'⟩
          ≤ totalObj Xmat alpha lam ⟨s.userF, V'⟩ :=
            userPass_decreases halpha hX hlam hu s.userF
        _ ≤ totalObj Xmat alpha lam ⟨s.userF, s.itemF⟩ :=
            itemPass_decreases halpha hX hlam hi s.itemF
        _ = totalObj Xmat alpha lam s := rfl

/-- Peeling the last round off the training loop. -/
theorem fitLoop_succ_last {M N k : ℕ} (Xmat : Fin M → Fin N → ℚ)
    (alpha lam : ℚ) (n : ℕ) (s : ALSState M N k) :
    fitLoop Xmat alpha lam (n + 1) s
    = (fitLoop Xmat alpha lam n s).bind (alsRound Xmat alpha lam) := by
  induction n generalizing s with
  | zero =>
    show (alsRound Xmat alpha lam s).bind (fitLoop Xmat alpha lam 0)
      = (some s).bind (alsRound Xmat alpha lam)
    rw [Option.some_bind]
    cases alsRound Xmat alpha lam s with
    | none => rfl
    | some s' => rfl
  | succ m ih =>
    show (alsRound Xmat alpha lam s).bind (fitLoop Xmat alpha lam (m + 1))
      = ((alsRound Xmat alpha lam s).bind (fitLoop Xmat alpha lam m)).bind
          (alsRound Xmat alpha lam)
    cases h : alsRound Xmat alpha lam s with
    | none => rfl
    | some s' =>
      rw [Option.some_bind, Option.some_bind]
      exact ih s'

/-- C8: for every interaction matrix with nonnegative weights,
nonnegative confidence scaling and regularization, and every starting
state, the ALS training objective
`Σ c(u,i)(p(u,i) − x_u·y_i)² + λ(Σ‖x‖² + Σ‖y‖²)` evaluated after each
full round (item pass then user pass) is non-increasing from each round
to the next, for every number of rounds.
(Spec-modelled: the ALS implementation is the external `implicit`
package, modelled here from spec section 4.3.) -/
theorem c8_objective_nonincreasing {M N k : ℕ} (Xmat : Fin M → Fin N → ℚ)
    (alpha lam : ℚ) (halpha : 0 ≤ alpha) (hX : ∀ i u, 0 ≤ Xmat i u)
    (hlam : 0 ≤ lam) (s0 : ALSState M N k) (n : ℕ)
    (t t' : ALSState M N k)
    (h1 : fitLoop Xmat alpha lam n s0 = some t)
    (h2 : fitLoop Xmat alpha lam (n + 1) s0 = some t') :
    totalObj Xmat alpha lam t' ≤ totalObj Xmat alpha lam t := by
  rw [fitLoop_succ_last, h1, Option.some_bind] at h2
  exact alsRound_decreases halpha hX hlam h2

theorem pref_zero : pref 0 = 0 := by simp [pref]

theorem normalVec_pzero {n k : ℕ} (F : Fin n → Vec k) (c : Fin n → ℚ) :
    normalVec F c (fun _ => 0) = 0 := by
  funext a
  simp [normalVec]

theorem solveLinear_zero {k : ℕ} (A : Matrix (Fin k) (Fin k) ℚ) :
    solveLinear A 0 = 0 := by
  simp [solveLinear, Matrix.mulVec_zero]

/-- On the all-zero interaction matrix, one ALS round maps the all-zero
state back to itself. -/
theorem fitLoop_zero_fixed :
    (fitLoop (fun (_ : Fin 1) (_ : Fin 1) => (0:ℚ)) 0 1 1
      ⟨fun _ _ => 0, fun _ _ => 0⟩ : Option (ALSState 1 1 1))
    = some ⟨fun _ _ => 0, fun _ _ => 0⟩ := by
  show (alsRound (fun _ _ => (0:ℚ)) 0 1 ⟨fun _ _ => 0, fun _ _ => 0⟩).bind
    (fitLoop (fun _ _ => (0:ℚ)) 0 1 0) = _
  unfold alsRound
  rw [itemPass_eq le_rfl (fun _ _ => le_rfl) (by norm_num)]
  rw [Option.some_bind]
  rw [userPass_eq le_rfl (fun _ _ => le_rfl) (by norm_num)]
  rw [Option.some_bind, Option.some_bind]
  simp only [pref_zero, normalVec_pzero, solveLinear_zero]
  rfl

/-- Witness for C8 at the concrete all-zero one-user one-item instance:
round 0 state and round 1 state, objective non-increasing. -/
theorem c8_objective_nonincreasing_witness :
    totalObj (fun (_ : Fin 1) (_ : Fin 1) => (0:ℚ)) 0 1
      (⟨fun _ _ => 0, fun _ _ => 0⟩ : ALSState 1 1 1)
    ≤ totalObj (fun _ _ => (0:ℚ)) 0 1
      (⟨fun _ _ => 0, fun _ _ => 0⟩ : ALSState 1 1 1) :=
  c8_objective_nonincreasing (fun _ _ => 0) 0 1 le_rfl (fun _ _ => le_rfl)
    (by norm_num) ⟨fun _ _ => 0, fun _ _ => 0⟩ 0 _ _ rfl fitLoop_zero_fixed

theorem alsRound_inv {M N k : ℕ} {Xmat : Fin M → Fin N → ℚ}
    {alpha lam : ℚ} {s s' : ALSState M N k}
    (h : alsRound Xmat alpha lam s = some s') :
    ∃ V' U', itemPass Xmat alpha lam s.userF = some V'
      ∧ userPass Xmat alpha lam V' = some U'
      ∧ s' = ⟨U', V'⟩ := by
  unfold alsRound at h
  cases hi : itemPass Xmat alpha lam s.userF with
  | none => rw [hi] at h; exact absurd h (Option.noConfusion)
  | some V' =>
    rw [hi, Option.some_bind] at h
    cases hu : userPass Xmat alpha lam V' with
    | none => rw [hu] at h; exact absurd h (Option.noConfusion)
    | some U' =>
      rw [hu, Option.some_bind] at h
      exact ⟨V', U', rfl, hu, (Option.some_injective _ h).symm⟩

theorem fitLoop_iff_trainRun {M N k : ℕ} (Xmat : Fin M → Fin N → ℚ)
    (alpha lam : ℚ) (n : ℕ) (s t : ALSState M N k) :
    fitLoop Xmat alpha lam n s = some t ↔ TrainRun Xmat alpha lam n s t := by
  constructor
  · intro h
    induction n generalizing t with
    | zero =>
      have : s = t := Option.some_injective _ h
      subst this
      exact TrainRun.zero s
    | succ m ih =>
      rw [fitLoop_succ_last] at h
      obtain ⟨mid, hmid, hround⟩ := Option.bind_eq_some.mp h
      obtain ⟨V', U', hip, hup, ht⟩ := alsRound_inv hround
      subst ht
      exact TrainRun.succ (ih mid hmid) hip hup
  · intro h
    induction h with
    | zero s => rfl
    | succ hrun hip hup ih =>
      rw [fitLoop_succ_last, ih, Option.some_bind]
      unfold alsRound
      rw [hip, Option.some_bind, hup, Option.some_bind]

/-- C7: training is deterministic — two training runs over the same
interaction matrix, hyperparameters and round count from the same state
reach the identical factor matrices, and `model.fit` with a fixed seed
realizes exactly the `iters`-round training-run relation from the seeded
initial state, so its result is uniquely determined by matrix,
hyperparameters and seed.
(Spec-modelled: the ALS implementation is the external `implicit`
package, modelled here from spec sections 4.3 and 7.) -/
theorem c7_training_deterministic {M N k : ℕ} (Xmat : Fin M → Fin N → ℚ)
    (alpha lam : ℚ) (iters seed : ℕ) :
    (∀ (n : ℕ) (s t t' : ALSState M N k),
      TrainRun Xmat alpha lam n s t → TrainRun Xmat alpha lam n s t' →
        t = t')
    ∧ ∀ t : ALSState M N k,
        fit Xmat alpha lam iters seed = some t
        ↔ TrainRun Xmat alpha lam iters (initState M N k seed) t := by
  constructor
  · intro n s t t' h1 h2
    induction h1 generalizing t' with
    | zero s => cases h2; rfl
    | succ hrun hip hup ih =>
      cases h2 with
      | succ hrun2 hip2 hup2 =>
        obtain rfl := ih _ hrun2
        obtain rfl := Option.some_injective _ (hip.symm.trans hip2)
        obtain rfl := Option.some_injective _ (hup.symm.trans hup2)
        rfl
  · intro t
    exact fitLoop_iff_trainRun Xmat alpha lam iters (initState M N k seed) t

/-- Witness for C7: two zero-round runs from the all-zero state reach the
same state. -/
theorem c7_training_deterministic_witness :
    (⟨fun _ _ => 0, fun _ _ => 0⟩ : ALSState 1 1 1)
    = ⟨fun _ _ => 0, fun _ _ => 0⟩ :=
  (c7_training_deterministic (fun _ _ => (0:ℚ)) 0 1 0 0).1 0
    ⟨fun _ _ => 0, fun _ _ => 0⟩ _ _
    (TrainRun.zero ⟨fun _ _ => 0, fun _ _ => 0⟩)
    (TrainRun.zero ⟨fun _ _ => 0, fun _ _ => 0⟩)

theorem scoreOrder_total {M : ℕ} (sc : Fin M → ℚ) (a b : Fin M) :
    scoreOrder sc a b ∨ scoreOrder sc b a := by
  unfold scoreOrder
  rcases lt_trichotomy (sc a) (sc b) with h | h | h
  · exact Or.inr (Or.inl h)
  · rcases le_total a b with hab | hab
    · exact Or.inl (Or.inr ⟨h, hab⟩)
    · exact Or.inr (Or.inr ⟨h.symm, hab⟩)
  · exact Or.inl (Or.inl h)

theorem scoreOrder_trans {M : ℕ} (sc : Fin M → ℚ) (a b c : Fin M) :
    scoreOrder sc a b → scoreOrder sc b c → scoreOrder sc a c := by
  unfold scoreOrder
  rintro (h1 | ⟨h1, h1'⟩) (h2 | ⟨h2, h2'⟩)
  · exact Or.inl (h2.trans h1)
  · exact Or.inl (h2 ▸ h1)
  · exact Or.inl (h1 ▸ h2)
  · exact Or.inr ⟨h1.trans h2, h1'.trans h2'⟩

/-- C2: a `recommend` call whose interaction-row argument does not
consist of exactly one row for the queried user index fails with
`ShapeMismatch` (the notebook's recorded failure when the full transposed
matrix was passed), and a call with exactly one row never fails with
`ShapeMismatch`.
(The shape check is the library source recorded in the traceback; the
remainder of `recommend` is spec-modelled from section 4.6.) -/
theorem c2_shape_mismatch {M N k : ℕ} (s : ALSState M N k) (userid : ℕ)
    (userItems : List (List ℚ)) (K : ℕ) (flt : Bool)
    (excl : List (Fin M)) :
    (userItems.length ≠ 1 →
      recommend s userid userItems K flt excl = .error .ShapeMismatch)
    ∧ (userItems.length = 1 →
      recommend s userid userItems K flt excl ≠ .error .ShapeMismatch) := by
  constructor
  · intro h
    unfold recommend
    rw [if_pos h]
  · intro h
    unfold recommend
    rw [if_neg (by simp [h])]
    by_cases hu : userid < N
    · rw [dif_pos hu]
      intro hc
      exact Except.noConfusion hc
    · rw [dif_neg hu]
      intro hc
      exact RecError.noConfusion (Except.error.injEq _ _ ▸ hc :
        RecError.IndexOutOfRange = RecError.ShapeMismatch)

/-- Witness for C2: on a one-user one-item model, passing three
interaction rows for a single user index fails with `ShapeMismatch`
(as the notebook's recorded `model.recommend(user_idx, X_t)` call did),
and passing exactly one row does not. -/
theorem c2_shape_mismatch_witness :
    recommend (⟨fun _ _ => 0, fun _ _ => 0⟩ : ALSState 1 1 1) 0
      [[0], [0], [0]] 10 true [] = .error .ShapeMismatch
    ∧ recommend (⟨fun _ _ => 0, fun _ _ => 0⟩ : ALSState 1 1 1) 0
      [[0]] 10 true [] ≠ .error .ShapeMismatch :=
  ⟨(c2_shape_mismatch _ 0 [[0], [0], [0]] 10 true []).1 (by decide),
   (c2_shape_mismatch _ 0 [[0]] 10 true []).2 (by decide)⟩

/-- C5: whenever `recommend` is called with
`filterAlreadyInteracted = true` and succeeds, no returned item index has
a nonzero entry in the supplied user interaction row, and no returned
item index is in `excludeItems`, regardless of `K`.
(Spec-modelled from section 4.6; the shape check is the library source
recorded in the traceback.) -/
theorem c5_filter_excludes {M N k : ℕ} (s : ALSState M N k) (userid : ℕ)
    (userItems : List (List ℚ)) (K : ℕ) (excl : List (Fin M))
    (r : List (Fin M))
    (h : recommend s userid userItems K true excl = .ok r) :
    ∀ i ∈ r, (userItems.headD []).getD i.val 0 = 0 ∧ i ∉ excl := by
  intro i hi
  unfold recommend at h
  split_ifs at h with h1 h2
  injection h with hr
  subst hr
  have hmem : i ∈ (List.finRange M).filter
      (fun j => decide (keepItem (userItems.headD []) true excl j)) :=
    (List.perm_insertionSort _ _).mem_iff.mp
      (List.take_subset _ _ hi)
  have hkeep : keepItem (userItems.headD []) true excl i :=
    of_decide_eq_true (List.mem_filter.mp hmem).2
  exact ⟨hkeep.1 rfl, hkeep.2⟩

/-- Witness for C5 on a concrete one-user one-item model: the returned
item 0 has a zero entry in the supplied row and is not excluded. -/
theorem c5_filter_excludes_witness :
    (([[(0:ℚ)]] : List (List ℚ)).headD []).getD (0 : Fin 1).val 0 = 0
    ∧ (0 : Fin 1) ∉ ([] : List (Fin 1)) :=
  c5_filter_excludes (⟨fun _ _ => 0, fun _ _ => 0⟩ : ALSState 1 1 1) 0
    [[0]] 10 [] [0] rfl 0 (by decide)

theorem dotV_sq_le_mul {k : ℕ} (v w : Vec k) :
    (dotV v w)^2 ≤ dotV v v * dotV w w := by
  have h := Finset.sum_mul_sq_le_sq_mul_sq Finset.univ v w
  simp only [pow_two] at h ⊢
  unfold dotV
  exact h

theorem sqrtden_pos {p n q : ℚ} (hp : p ≠ 0) (h : p^2 ≤ q * n)
    (hq : 0 ≤ q) (hn : 0 ≤ n) :
    0 < Real.sqrt (q:ℝ) * Real.sqrt (n:ℝ) := by
  have hp2 : 0 < p^2 := by positivity
  have hq' : 0 < q := by nlinarith
  have hn' : 0 < n := by nlinarith
  have hq2 : (0:ℝ) < (q:ℝ) := by exact_mod_cast hq'
  have hn2 : (0:ℝ) < (n:ℝ) := by exact_mod_cast hn'
  exact mul_pos (Real.sqrt_pos.mpr hq2) (Real.sqrt_pos.mpr hn2)

theorem den_mul_self {n q : ℚ} (hq : 0 ≤ q) (hn : 0 ≤ n) :
    (Real.sqrt (q:ℝ) * Real.sqrt (n:ℝ)) * (Real.sqrt (q:ℝ) * Real.sqrt (n:ℝ))
    = (q:ℝ) * (n:ℝ) := by
  have hq2 : (0:ℝ) ≤ (q:ℝ) := by exact_mod_cast hq
  have hn2 : (0:ℝ) ≤ (n:ℝ) := by exact_mod_cast hn
  calc (Real.sqrt (q:ℝ) * Real.sqrt (n:ℝ)) * (Real.sqrt (q:ℝ) * Real.sqrt (n:ℝ))
      = (Real.sqrt (q:ℝ) * Real.sqrt (q:ℝ)) * (Real.sqrt (n:ℝ) * Real.sqrt (n:ℝ)) := by ring
    _ = (q:ℝ) * (n:ℝ) := by rw [Real.mul_self_sqrt hq2, Real.mul_self_sqrt hn2]

theorem cmp_pos_pos {p1 n1 p2 n2 q : ℚ} (hq : 0 ≤ q) (hn1 : 0 ≤ n1)
    (hn2 : 0 ≤ n2) (h1 : p1^2 ≤ q * n1) (h2 : p2^2 ≤ q * n2)
    (hp1 : 0 < p1) (hp2 : 0 < p2) :
    ((p2:ℝ) / (Real.sqrt (q:ℝ) * Real.sqrt (n2:ℝ))
      < (p1:ℝ) / (Real.sqrt (q:ℝ) * Real.sqrt (n1:ℝ)))
    ↔ p2^2 * n1 < p1^2 * n2 := by
  have hd1 : 0 < Real.sqrt (q:ℝ) * Real.sqrt (n1:ℝ) :=
    sqrtden_pos hp1.ne' h1 hq hn1
  have hd2 : 0 < Real.sqrt (q:ℝ) * Real.sqrt (n2:ℝ) :=
    sqrtden_pos hp2.ne' h2 hq hn2
  have hq' : 0 < q := by nlinarith
  have hqR : (0:ℝ) < (q:ℝ) := by exact_mod_cast hq'
  rw [div_lt_div_iff hd2 hd1]
  have ha : (0:ℝ) ≤ (p2:ℝ) * (Real.sqrt (q:ℝ) * Real.sqrt (n1:ℝ)) :=
    mul_nonneg (by exact_mod_cast hp2.le) hd1.le
  have hb : (0:ℝ) ≤ (p1:ℝ) * (Real.sqrt (q:ℝ) * Real.sqrt (n2:ℝ)) :=
    mul_nonneg (by exact_mod_cast hp1.le) hd2.le
  rw [mul_self_lt_mul_self_iff ha hb]
  rw [show ((p2:ℝ) * (Real.sqrt (q:ℝ) * Real.sqrt (n1:ℝ)))
      * ((p2:ℝ) * (Real.sqrt (q:ℝ) * Real.sqrt (n1:ℝ)))
      = (p2:ℝ)^2 * ((Real.sqrt (q:ℝ) * Real.sqrt (n1:ℝ))
        * (Real.sqrt (q:ℝ) * Real.sqrt (n1:ℝ))) from by ring]
  rw [show ((p1:ℝ) * (Real.sqrt (q:ℝ) * Real.sqrt (n2:ℝ)))
      * ((p1:ℝ) * (Real.sqrt (q:ℝ) * Real.sqrt (n2:ℝ)))
      = (p1:ℝ)^2 * ((Real.sqrt (q:ℝ) * Real.sqrt (n2:ℝ))
        * (Real.sqrt (q:ℝ) * Real.sqrt (n2:ℝ))) from by ring]
  rw [den_mul_self hq hn1, den_mul_self hq hn2]
  rw [show (p2:ℝ)^2 * ((q:ℝ) * (n1:ℝ)) = (q:ℝ) * ((p2:ℝ)^2 * (n1:ℝ)) from by ring]
  rw [show (p1:ℝ)^2 * ((q:ℝ) * (n2:ℝ)) = (q:ℝ) * ((p1:ℝ)^2 * (n2:ℝ)) from by ring]
  rw [mul_lt_mul_left hqR]
  constructor
  · intro h
    exact_mod_cast h
  · intro h
    exact_mod_cast h

theorem cmp_neg_neg {p1 n1 p2 n2 q : ℚ} (hq : 0 ≤ q) (hn1 : 0 ≤ n1)
    (hn2 : 0 ≤ n2) (h1 : p1^2 ≤ q * n1) (h2 : p2^2 ≤ q * n2)
    (hp1 : p1 < 0) (hp2 : p2 < 0) :
    ((p2:ℝ) / (Real.sqrt (q:ℝ) * Real.sqrt (n2:ℝ))
      < (p1:ℝ) / (Real.sqrt (q:ℝ) * Real.sqrt (n1:ℝ)))
    ↔ p1^2 * n2 < p2^2 * n1 := by
  have hd1 : 0 < Real.sqrt (q:ℝ) * Real.sqrt (n1:ℝ) :=
    sqrtden_pos hp1.ne h1 hq hn1
  have hd2 : 0 < Real.sqrt (q:ℝ) * Real.sqrt (n2:ℝ) :=
    sqrtden_pos hp2.ne h2 hq hn2
  have hq' : 0 < q := by nlinarith [sq_pos_of_ne_zero hp1.ne]
  have hqR : (0:ℝ) < (q:ℝ) := by exact_mod_cast hq'
  rw [div_lt_div_iff hd2 hd1]
  rw [← neg_lt_neg_iff]
  have ha : (0:ℝ) ≤ -((p1:ℝ) * (Real.sqrt (q:ℝ) * Real.sqrt (n2:ℝ))) := by
    rw [show -((p1:ℝ) * (Real.sqrt (q:ℝ) * Real.sqrt (n2:ℝ)))
      = (-(p1:ℝ)) * (Real.sqrt (q:ℝ) * Real.sqrt (n2:ℝ)) from by ring]
    have : (p1:ℝ) < 0 := by exact_mod_cast hp1
    exact mul_nonneg (by linarith) hd2.le
  have hb : (0:ℝ) ≤ -((p2:ℝ) * (Real.sqrt (q:ℝ) * Real.sqrt (n1:ℝ))) := by
    rw [show -((p2:ℝ) * (Real.sqrt (q:ℝ) * Real.sqrt (n1:ℝ)))
      = (-(p2:ℝ)) * (Real.sqrt (q:ℝ) * Real.sqrt (n1:ℝ)) from by ring]
    have : (p2:ℝ) < 0 := by exact_mod_cast hp2
    exact mul_nonneg (by linarith) hd1.le
  rw [mul_self_lt_mul_self_iff ha hb]
  rw [show (-((p1:ℝ) * (Real.sqrt (q:ℝ) * Real.sqrt (n2:ℝ))))
      * (-((p1:ℝ) * (Real.sqrt (q:ℝ) * Real.sqrt (n2:ℝ))))
      = (p1:ℝ)^2 * ((Real.sqrt (q:ℝ) * Real.sqrt (n2:ℝ))
        * (Real.sqrt (q:ℝ) * Real.sqrt (n2:ℝ))) from by ring]
  rw [show (-((p2:ℝ) * (Real.sqrt (q:ℝ) * Real.sqrt (n1:ℝ))))
      * (-((p2:ℝ) * (Real.sqrt (q:ℝ) * Real.sqrt (n1:ℝ))))
      = (p2:ℝ)^2 * ((Real.sqrt (q:ℝ) * Real.sqrt (n1:ℝ))
        * (Real.sqrt (q:ℝ) * Real.sqrt (n1:ℝ))) from by ring]
  rw [den_mul_self hq hn2, den_mul_self hq hn1]
  rw [show (p1:ℝ)^2 * ((q:ℝ) * (n2:ℝ)) = (q:ℝ) * ((p1:ℝ)^2 * (n2:ℝ)) from by ring]
  rw [show (p2:ℝ)^2 * ((q:ℝ) * (n1:ℝ)) = (q:ℝ) * ((p2:ℝ)^2 * (n1:ℝ)) from by ring]
  rw [mul_lt_mul_left hqR]
  constructor
  · intro h
    exact_mod_cast h
  · intro h
    exact_mod_cast h

theorem ratio_gt_iff (p1 n1 p2 n2 q : ℚ) (hq : 0 ≤ q) (hn1 : 0 ≤ n1)
    (hn2 : 0 ≤ n2) (h1 : p1^2 ≤ q * n1) (h2 : p2^2 ≤ q * n2) :
    ((p2:ℝ) / (Real.sqrt (q:ℝ) * Real.sqrt (n2:ℝ))
      < (p1:ℝ) / (Real.sqrt (q:ℝ) * Real.sqrt (n1:ℝ)))
    ↔ ((0 < p1 ∧ (p2 ≤ 0 ∨ p2^2 * n1 < p1^2 * n2))
       ∨ (p1 = 0 ∧ p2 < 0)
       ∨ (p1 < 0 ∧ p2 < 0 ∧ p1^2 * n2 < p2^2 * n1)) := by
  rcases lt_trichotomy p1 0 with hp1 | hp1 | hp1
  · have hd1 : 0 < Real.sqrt (q:ℝ) * Real.sqrt (n1:ℝ) :=
      sqrtden_pos hp1.ne h1 hq hn1
    have hv1 : (p1:ℝ) / (Real.sqrt (q:ℝ) * Real.sqrt (n1:ℝ)) < 0 :=
      div_neg_of_neg_of_pos (by exact_mod_cast hp1) hd1
    rcases lt_trichotomy p2 0 with hp2 | hp2 | hp2
    · rw [cmp_neg_neg hq hn1 hn2 h1 h2 hp1 hp2]
      constructor
      · intro hx
        exact Or.inr (Or.inr ⟨hp1, hp2, hx⟩)
      · rintro ((⟨ha, _⟩) | (⟨ha, _⟩) | (⟨_, _, hx⟩))
        · exact absurd ha (by linarith)
        · exact absurd ha (by linarith)
        · exact hx
    · subst hp2
      constructor
      · intro hx
        rw [Rat.cast_zero, zero_div] at hx
        exact absurd hx (by linarith)
      · rintro ((⟨ha, _⟩) | (⟨ha, _⟩) | (⟨_, hb, _⟩))
        · exact absurd ha (by linarith)
        · exact absurd ha (by linarith)
        · exact absurd hb (by linarith)
    · have hd2 : 0 < Real.sqrt (q:ℝ) * Real.sqrt (n2:ℝ) :=
        sqrtden_pos hp2.ne' h2 hq hn2
      have hv2 : 0 < (p2:ℝ) / (Real.sqrt (q:ℝ) * Real.sqrt (n2:ℝ)) :=
        div_pos (by exact_mod_cast hp2) hd2
      constructor
      · intro hx
        exact absurd (hx.trans hv1) (by linarith)
      · rintro ((⟨ha, _⟩) | (⟨ha, _⟩) | (⟨_, hb, _⟩))
        · exact absurd ha (by linarith)
        · exact absurd ha (by linarith)
        · exact absurd hb (by linarith)
  · subst hp1
    constructor
    · intro hx
      rw [Rat.cast_zero, zero_div] at hx
      rcases lt_trichotomy p2 0 with hp2 | hp2 | hp2
      · exact Or.inr (Or.inl ⟨rfl, hp2⟩)
      · subst hp2
        rw [Rat.cast_zero, zero_div] at hx
        exact absurd hx (by linarith)
      · have hd2 : 0 < Real.sqrt (q:ℝ) * Real.sqrt (n2:ℝ) :=
          sqrtden_pos hp2.ne' h2 hq hn2
        have hv2 : 0 < (p2:ℝ) / (Real.sqrt (q:ℝ) * Real.sqrt (n2:ℝ)) :=
          div_pos (by exact_mod_cast hp2) hd2
        exact absurd hx (by linarith)
    · rintro ((⟨ha, _⟩) | (⟨_, hb⟩) | (⟨ha, _, _⟩))
      · exact absurd ha (by linarith)
      · have hd2 : 0 < Real.sqrt (q:ℝ) * Real.sqrt (n2:ℝ) :=
          sqrtden_pos hb.ne h2 hq hn2
        have hv2 : (p2:ℝ) / (Real.sqrt (q:ℝ) * Real.sqrt (n2:ℝ)) < 0 :=
          div_neg_of_neg_of_pos (by exact_mod_cast hb) hd2
        rw [Rat.cast_zero, zero_div]
        exact hv2
      · exact absurd ha (by linarith)
  · have hd1 : 0 < Real.sqrt (q:ℝ) * Real.sqrt (n1:ℝ) :=
      sqrtden_pos hp1.ne' h1 hq hn1
    have hv1 : 0 < (p1:ℝ) / (Real.sqrt (q:ℝ) * Real.sqrt (n1:ℝ)) :=
      div_pos (by exact_mod_cast hp1) hd1
    rcases lt_trichotomy p2 0 with hp2 | hp2 | hp2
    · have hd2 : 0 < Real.sqrt (q:ℝ) * Real.sqrt (n2:ℝ) :=
        sqrtden_pos hp2.ne h2 hq hn2
      have hv2 : (p2:ℝ) / (Real.sqrt (q:ℝ) * Real.sqrt (n2:ℝ)) < 0 :=
        div_neg_of_neg_of_pos (by exact_mod_cast hp2) hd2
      constructor
      · intro _
        exact Or.inl ⟨hp1, Or.inl hp2.le⟩
      · intro _
        linarith
    · subst hp2
      constructor
      · intro _
        exact Or.inl ⟨hp1, Or.inl le_rfl⟩
      · intro _
        rw [Rat.cast_zero, zero_div]
        exact hv1
    · rw [cmp_pos_pos hq hn1 hn2 h1 h2 hp1 hp2]
      constructor
      · intro hx
        exact Or.inl ⟨hp1, Or.inr hx⟩
      · rintro ((⟨_, (hb | hx)⟩) | (⟨ha, _⟩) | (⟨ha, _, _⟩))
        · exact absurd hb (by linarith)
        · exact hx
        · exact absurd ha (by linarith)
        · exact absurd ha (by linarith)

theorem cosGtQ_iff {M k : ℕ} (V : Fin M → Vec k) (i a b : Fin M) :
    cosGtQ V i a b ↔ cosSim V i b < cosSim V i a := by
  unfold cosGtQ cosSim
  exact (ratio_gt_iff (dotV (V i) (V a)) (dotV (V a) (V a))
    (dotV (V i) (V b)) (dotV (V b) (V b)) (dotV (V i) (V i))
    (dotV_self_nonneg _) (dotV_self_nonneg _) (dotV_self_nonneg _)
    (dotV_sq_le_mul _ _) (dotV_sq_le_mul _ _)).symm

theorem simOrder_iff {M k : ℕ} (V : Fin M → Vec k) (i a b : Fin M) :
    simOrder V i a b
    ↔ (cosSim V i b < cosSim V i a
       ∨ (cosSim V i a = cosSim V i b ∧ a ≤ b)) := by
  unfold simOrder
  rw [cosGtQ_iff, cosGtQ_iff]
  constructor
  · rintro (h | ⟨h1, h2, h3⟩)
    · exact Or.inl h
    · exact Or.inr ⟨le_antisymm (not_lt.mp h1) (not_lt.mp h2), h3⟩
  · rintro (h | ⟨h, h3⟩)
    · exact Or.inl h
    · exact Or.inr ⟨not_lt.mpr h.le, not_lt.mpr h.ge, h3⟩

theorem simOrder_total {M k : ℕ} (V : Fin M → Vec k) (i : Fin M)
    (a b : Fin M) : simOrder V i a b ∨ simOrder V i b a := by
  rw [simOrder_iff, simOrder_iff]
  rcases lt_trichotomy (cosSim V i a) (cosSim V i b) with h | h | h
  · exact Or.inr (Or.inl h)
  · rcases le_total a b with hab | hab
    · exact Or.inl (Or.inr ⟨h, hab⟩)
    · exact Or.inr (Or.inr ⟨h.symm, hab⟩)
  · exact Or.inl (Or.inl h)

theorem simOrder_trans {M k : ℕ} (V : Fin M → Vec k) (i : Fin M)
    (a b c : Fin M) :
    simOrder V i a b → simOrder V i b c → simOrder V i a c := by
  rw [simOrder_iff, simOrder_iff, simOrder_iff]
  rintro (h1 | ⟨h1, h1'⟩) (h2 | ⟨h2, h2'⟩)
  · exact Or.inl (h2.trans h1)
  · exact Or.inl (h2 ▸ h1)
  · exact Or.inl (h1 ▸ h2)
  · exact Or.inr ⟨h1.trans h2, h1'.trans h2'⟩

/-- The self-similarity of an item with a nonzero factor row is exactly
1 under the normalized view. -/
theorem cosSim_self {M k : ℕ} (V : Fin M → Vec k) (i : Fin M)
    (hVi : dotV (V i) (V i) ≠ 0) : cosSim V i i = 1 := by
  unfold cosSim
  have hq : 0 < dotV (V i) (V i) := lt_of_le_of_ne (dotV_self_nonneg _) (Ne.symm hVi)
  have hqR : (0:ℝ) < ((dotV (V i) (V i) : ℚ) : ℝ) := by exact_mod_cast hq
  rw [Real.mul_self_sqrt hqR.le]
  exact div_self hqR.ne'

/-- Cauchy–Schwarz for cosines: no item scores strictly above the
queried item's self-similarity. -/
theorem cosSim_le_self {M k : ℕ} (V : Fin M → Vec k) (i j : Fin M) :
    cosSim V i j ≤ cosSim V i i := by
  have hq : (0:ℚ) ≤ dotV (V i) (V i) := dotV_self_nonneg _
  have hcs : (0:ℝ) ≤ cosSim V i i := by
    unfold cosSim
    apply div_nonneg
    · exact_mod_cast hq
    · exact mul_nonneg (Real.sqrt_nonneg _) (Real.sqrt_nonneg _)
  rcases le_or_lt (dotV (V i) (V j)) 0 with hp | hp
  · have : cosSim V i j ≤ 0 := by
      unfold cosSim
      apply div_nonpos_iff.mpr
      exact Or.inr ⟨by exact_mod_cast hp,
        mul_nonneg (Real.sqrt_nonneg _) (Real.sqrt_nonneg _)⟩
    linarith
  · -- positive dot product: self similarity is 1 and cosine is at most 1
    have hcsq : (dotV (V i) (V j))^2 ≤ dotV (V i) (V i) * dotV (V j) (V j) :=
      dotV_sq_le_mul _ _
    have hq' : 0 < dotV (V i) (V i) := by
      by_contra hqc
      push_neg at hqc
      have h1 : dotV (V i) (V i) * dotV (V j) (V j) ≤ 0 :=
        mul_nonpos_of_nonpos_of_nonneg hqc (dotV_self_nonneg _)
      have h2 : 0 < (dotV (V i) (V j))^2 := sq_pos_of_ne_zero hp.ne'
      linarith
    have hd : 0 < Real.sqrt ((dotV (V i) (V i) : ℚ) : ℝ)
        * Real.sqrt ((dotV (V j) (V j) : ℚ) : ℝ) :=
      sqrtden_pos hp.ne' hcsq hq (dotV_self_nonneg _)
    rw [cosSim_self V i hq'.ne']
    unfold cosSim
    rw [div_le_one hd]
    have hpR : (0:ℝ) ≤ ((dotV (V i) (V j) : ℚ) : ℝ) := by exact_mod_cast hp.le
    rw [← Real.sqrt_mul (by exact_mod_cast hq : (0:ℝ) ≤ ((dotV (V i) (V i) : ℚ) : ℝ))]
    rw [Real.le_sqrt hpR (mul_nonneg (by exact_mod_cast hq)
      (by exact_mod_cast dotV_self_nonneg (V j)))]
    have : ((dotV (V i) (V j) : ℚ) : ℝ)^2
        ≤ ((dotV (V i) (V i) : ℚ) : ℝ) * ((dotV (V j) (V j) : ℚ) : ℝ) := by
      exact_mod_cast hcsq
    exact this

/-- In a list sorted by a relation, an element below every other listed
element is the head. -/
theorem sorted_head_eq {α : Type} {r : α → α → Prop} {l : List α} {i : α}
    (hs : List.Pairwise r l) (hmem : i ∈ l)
    (hmin : ∀ j ∈ l, j ≠ i → ¬ r j i) : l.head? = some i := by
  cases l with
  | nil => exact absurd hmem (List.not_mem_nil i)
  | cons x t =>
    by_cases hx : x = i
    · rw [hx]
      rfl
    · have hit : i ∈ t := by
        rcases List.mem_cons.mp hmem with h | h
        · exact absurd h.symm hx
        · exact h
      have hr : r x i := List.rel_of_pairwise_cons hs hit
      exact absurd hr (hmin x (List.mem_cons_self x t) hx)

theorem head?_take {α : Type} {l : List α} {K : ℕ} (hK : 1 ≤ K) :
    (l.take K).head? = l.head? := by
  cases l with
  | nil => simp
  | cons x t =>
    cases K with
    | zero => exact absurd hK (by norm_num)
    | succ m => simp [List.take]

/-- Counterexample for C4 as stated, refuting both of its conjuncts at
concrete trained models.  First: with two items carrying identical
factor rows, `similar_items(1, 2)` returns item 0 — the equally-scored
item with the smaller dense index — first, not the queried item 1, per
the ascending-index tie-break.  Second: with a single item whose trained
factor row is all zero, the queried item's score is 0, not the claimed
1.0 of the normalized view. -/
theorem c4_self_top_counterexample :
    (¬ ((similar_items (M := 2) (k := 1) (fun _ _ => 1) 1 2).head?
        = some 1))
    ∧ cosSim (M := 1) (k := 1) (fun _ _ => 0) 0 0 ≠ 1 := by
  constructor
  · have h01 : simOrder (M := 2) (k := 1) (fun _ _ => (1:ℚ)) 1 0 1 := by
      right
      refine ⟨?_, ?_, by norm_num⟩ <;> simp [cosGtQ, dotV]
    have hfr : List.finRange 2 = [0, 1] := by decide
    have hsort : (List.finRange 2).insertionSort
        (simOrder (M := 2) (k := 1) (fun _ _ => (1:ℚ)) 1) = [0, 1] := by
      rw [hfr]
      show List.orderedInsert _ 0
        (List.orderedInsert _ 1 (List.insertionSort _ [])) = [0, 1]
      rw [List.insertionSort]
      rw [List.orderedInsert]
      show List.orderedInsert _ 0 [1] = [0, 1]
      rw [List.orderedInsert, if_pos h01]
    rw [similar_items, hsort]
    decide
  · simp [cosSim, dotV]

/-- C4 (amended): for every trained item-factor matrix, every valid item
index `i` with a nonzero factor row and every `K ≥ 1`, provided no item
with a smaller dense index ties `i`'s cosine score, `similar_items(i, K)`
returns item `i` itself as its first element; `i`'s score is its
normalized self dot product, exactly 1, and that score is maximal among
all items' scores.  Both provisos are forced by the counterexample: an
identically-factored item with a smaller index is returned first under
the ascending-index tie-break, and an all-zero factor row makes the
self-score 0 rather than 1.
(Spec-modelled: `similar_items` is the external `implicit` package,
modelled from spec section 4.5 and the recorded notebook output.) -/
theorem c4_self_top {M k : ℕ} (V : Fin M → Vec k) (i : Fin M) (K : ℕ)
    (hK : 1 ≤ K) (hVi : dotV (V i) (V i) ≠ 0)
    (htie : ∀ j, j < i → cosGtQ V i i j) :
    (similar_items V i K).head? = some i
    ∧ cosSim V i i = 1
    ∧ ∀ j, cosSim V i j ≤ cosSim V i i := by
  haveI : IsTotal (Fin M) (simOrder V i) := ⟨simOrder_total V i⟩
  haveI : IsTrans (Fin M) (simOrder V i) := ⟨simOrder_trans V i⟩
  refine ⟨?_, cosSim_self V i hVi, fun j => cosSim_le_self V i j⟩
  unfold similar_items
  rw [head?_take hK]
  apply sorted_head_eq (List.sorted_insertionSort _ _)
  · exact ((List.perm_insertionSort _ _).mem_iff).mpr (List.mem_finRange i)
  · intro j _ hji
    rw [simOrder_iff]
    rintro (hlt | ⟨heq, hle⟩)
    · exact absurd hlt (not_lt.mpr (cosSim_le_self V i j))
    · have hjlt : j < i := lt_of_le_of_ne hle hji
      have hgt := (cosGtQ_iff V i i j).mp (htie j hjlt)
      rw [heq] at hgt
      exact lt_irrefl _ hgt

/-- Witness for C4 (amended) on a one-item model with factor row `[1]`:
the queried item is first, with self-score 1, maximal. -/
theorem c4_self_top_witness :
    (similar_items (M := 1) (k := 1) (fun _ _ => 1) 0 1).head? = some 0
    ∧ cosSim (M := 1) (k := 1) (fun _ _ => 1) 0 0 = 1
    ∧ ∀ j, cosSim (M := 1) (k := 1) (fun _ _ => 1) 0 j
        ≤ cosSim (M := 1) (k := 1) (fun _ _ => 1) 0 0 :=
  c4_self_top (fun _ _ => 1) 0 1 le_rfl (by simp [dotV])
    (fun j hj => absurd (Fin.lt_def.mp hj) (Nat.not_lt_zero _))

/-- C9: both retrieval operations return at most `K` results, sorted by
strictly descending score with any equal scores ordered by ascending
dense item index — `similar_items` under its cosine scores, `recommend`
under its dot-product scores.
(Spec-modelled: both operations are the external `implicit` package,
modelled from spec sections 4.5/4.6.) -/
theorem c9_sorted_topk :
    (∀ (M k : ℕ) (V : Fin M → Vec k) (i : Fin M) (K : ℕ),
      (similar_items V i K).length ≤ K
      ∧ List.Pairwise (fun a b => cosSim V i b < cosSim V i a
          ∨ (cosSim V i a = cosSim V i b ∧ a < b)) (similar_items V i K))
    ∧ (∀ (M N k : ℕ) (s : ALSState M N k) (userid : ℕ)
        (userItems : List (List ℚ)) (K : ℕ) (flt : Bool)
        (excl : List (Fin M)) (r : List (Fin M)) (hu : userid < N),
        recommend s userid userItems K flt excl = .ok r →
        r.length ≤ K
        ∧ List.Pairwise (fun a b =>
            dotV (s.itemF b) (s.userF ⟨userid, hu⟩)
              < dotV (s.itemF a) (s.userF ⟨userid, hu⟩)
            ∨ (dotV (s.itemF a) (s.userF ⟨userid, hu⟩)
                = dotV (s.itemF b) (s.userF ⟨userid, hu⟩) ∧ a < b)) r) := by
  constructor
  · intro M k V i K
    haveI : IsTotal (Fin M) (simOrder V i) := ⟨simOrder_total V i⟩
    haveI : IsTrans (Fin M) (simOrder V i) := ⟨simOrder_trans V i⟩
    refine ⟨List.length_take_le _ _, ?_⟩
    unfold similar_items
    apply List.Pairwise.sublist (List.take_sublist _ _)
    have hs : List.Pairwise (simOrder V i)
        ((List.finRange M).insertionSort (simOrder V i)) :=
      List.sorted_insertionSort _ _
    have hnd : ((List.finRange M).insertionSort (simOrder V i)).Nodup :=
      ((List.perm_insertionSort _ _).nodup_iff).mpr (List.nodup_finRange M)
    refine (hs.and hnd).imp ?_
    rintro a b ⟨hab, hne⟩
    rw [simOrder_iff] at hab
    rcases hab with h | ⟨h, hle⟩
    · exact Or.inl h
    · exact Or.inr ⟨h, lt_of_le_of_ne hle hne⟩
  · intro M N k s userid userItems K flt excl r hu h
    haveI : ∀ sc : Fin M → ℚ, IsTotal (Fin M) (scoreOrder sc) :=
      fun sc => ⟨scoreOrder_total sc⟩
    haveI : ∀ sc : Fin M → ℚ, IsTrans (Fin M) (scoreOrder sc) :=
      fun sc => ⟨fun a b c => scoreOrder_trans sc a b c⟩
    unfold recommend at h
    split_ifs at h with h1 h2
    injection h with hr
    subst hr
    refine ⟨List.length_take_le _ _, ?_⟩
    apply List.Pairwise.sublist (List.take_sublist _ _)
    have hs : List.Pairwise
        (scoreOrder fun j => dotV (s.itemF j) (s.userF ⟨userid, hu⟩))
        (((List.finRange M).filter
          (fun j => decide (keepItem (userItems.headD []) flt excl j))).insertionSort
            (scoreOrder fun j => dotV (s.itemF j) (s.userF ⟨userid, hu⟩))) :=
      List.sorted_insertionSort _ _
    have hnd : (((List.finRange M).filter
        (fun j => decide (keepItem (userItems.headD []) flt excl j))).insertionSort
          (scoreOrder fun j => dotV (s.itemF j) (s.userF ⟨userid, hu⟩))).Nodup :=
      ((List.perm_insertionSort _ _).nodup_iff).mpr
        (List.Nodup.filter _ (List.nodup_finRange M))
    refine (hs.and hnd).imp ?_
    rintro a b ⟨hab, hne⟩
    rcases hab with hlt | ⟨heq, hle⟩
    · exact Or.inl hlt
    · exact Or.inr ⟨heq, lt_of_le_of_ne hle hne⟩

/-- Witness for C9: a successful concrete `recommend` call returns at
most `K` results. -/
theorem c9_sorted_topk_witness : ([0] : List (Fin 1)).length ≤ 10 :=
  (c9_sorted_topk.2 1 1 1 ⟨fun _ _ => 0, fun _ _ => 0⟩ 0 [[0]] 10 true []
    [0] Nat.one_pos rfl).1

end RecSys

